import Mathlib

/-!
Verification of the `rand_set` crate (`src/lib.rs`).

The Rust type `RandSet<T, S>` holds two fields: `values_to_index: HashMap<T, usize, S>`
and `items_vector: Vec<T>`.  We embed the `HashMap` as an association list with the
usual map operations (`get` finds the entry for a key, `insert` overwrites the entry
of an existing key, `remove` deletes the key's entry) and the `Vec` as a `List`.

Panicking operations (`len() - 1` underflow on an empty vector, out-of-bounds
`Vec::swap` / indexing) are modelled by returning `none`, so `RandSet.remove` is
`Option`-valued: `some` is normal return, `none` is a panic.
`get_rand` takes the index drawn by the random source as an explicit argument.
-/

namespace RandSetSpec

variable {α : Type} [DecidableEq α]

/-- Model of `HashMap::get` on an association list: value of the first entry
whose key equals `k`. -/
def assocGet : List (α × Nat) → α → Option Nat
  | [], _ => none
  | e :: rest, k => if e.1 = k then some e.2 else assocGet rest k

/-- Model of `HashMap::contains_key`. -/
def assocContains (m : List (α × Nat)) (k : α) : Bool :=
  (assocGet m k).isSome

/-- Model of `HashMap::insert`: overwrite the entry of an existing key,
otherwise add a new entry. -/
def assocInsert : List (α × Nat) → α → Nat → List (α × Nat)
  | [], k, v => [(k, v)]
  | e :: rest, k, v => if e.1 = k then (k, v) :: rest else e :: assocInsert rest k v

/-- Model of `HashMap::remove`: delete the entry of the key, if present. -/
def assocRemove : List (α × Nat) → α → List (α × Nat)
  | [], _ => []
  | e :: rest, k => if e.1 = k then rest else e :: assocRemove rest k

/-- Model of `Vec::swap` (in `remove` it is only reached with both indices in
bounds; out of bounds Rust would panic, which `remove` models separately). -/
def listSwap (l : List α) (i j : Nat) : List α :=
  match l[i]?, l[j]? with
  | some a, some b => (l.set i b).set j a
  | _, _ => l

/-- The two fields of `RandSet<T, S>` (the hasher `S` carries no data relevant
to the container's behaviour and is not modelled). -/
structure RandSet (α : Type) where
  values_to_index : List (α × Nat)
  items_vector : List α
deriving DecidableEq

namespace RandSet

/-- `RandSet::new`. -/
def new : RandSet α := ⟨[], []⟩

/-- `RandSet::len`. -/
def len (s : RandSet α) : Nat := s.items_vector.length

/-- `RandSet::is_empty` (computed from `values_to_index`, as in the source). -/
def is_empty (s : RandSet α) : Bool := s.values_to_index.isEmpty

/-- `RandSet::contains`. -/
def contains (s : RandSet α) (value : α) : Bool :=
  assocContains s.values_to_index value

/-- `RandSet::clear`. -/
def clear (_ : RandSet α) : RandSet α := ⟨[], []⟩

/-- `RandSet::insert`: returns the updated set and the returned Bool. -/
def insert (s : RandSet α) (value : α) : RandSet α × Bool :=
  if assocContains s.values_to_index value then (s, false)
  else (⟨assocInsert s.values_to_index value s.items_vector.length,
         s.items_vector ++ [value]⟩, true)

/-- `RandSet::remove`: returns the updated set and the returned Bool, or `none`
when the Rust code would panic (`len() - 1` underflow, out-of-bounds swap or
index). -/
def remove (s : RandSet α) (value : α) : Option (RandSet α × Bool) :=
  match assocGet s.values_to_index value with
  | none => some (s, false)
  | some matching_index =>
    if s.items_vector.length = 0 then
      none
    else
      let last_index := s.items_vector.length - 1
      if matching_index = last_index then
        some (⟨assocRemove s.values_to_index value, s.items_vector.dropLast⟩, true)
      else if matching_index < s.items_vector.length then
        let swapped_vector := listSwap s.items_vector matching_index last_index
        match swapped_vector[matching_index]? with
        | some swapped_value =>
          some (⟨assocRemove (assocInsert s.values_to_index swapped_value matching_index)
                   value,
                 swapped_vector.dropLast⟩, true)
        | none => none
      else
        none

/-- `RandSet::get_rand`, with the index drawn by the random source passed
explicitly (the source draws uniformly from `[0, len)`). -/
def get_rand (s : RandSet α) (random_index : Nat) : Option α :=
  if s.items_vector.isEmpty then none
  else s.items_vector[random_index]?

/-- `RandSet::iter` iterates `items_vector`. -/
def iter (s : RandSet α) : List α := s.items_vector

/-- `IntoIterator for RandSet` iterates `items_vector`. -/
def into_iter (s : RandSet α) : List α := s.items_vector

/-- `PartialEq::eq for RandSet` (works across hashers in the source; hashers
are not modelled). -/
def eq (s : RandSet α) (other : RandSet α) : Bool :=
  if s.len ≠ other.len then false
  else s.iter.all fun item => other.contains item

end RandSet

/-- Invariant I1 (bijection), as in the spec: the map and the vector have the
same length, every map entry `(k, i)` satisfies `items_vector[i] == k`, and
every valid position `i` satisfies `values_to_index[items_vector[i]] == i`. -/
def I1 (s : RandSet α) : Prop :=
  s.values_to_index.length = s.items_vector.length ∧
  (∀ e ∈ s.values_to_index, s.items_vector[e.2]? = some e.1) ∧
  (∀ p ∈ s.items_vector.enum, assocGet s.values_to_index p.2 = some p.1)

instance (s : RandSet α) : Decidable (I1 s) := by
  unfold I1
  infer_instance

/-- A public mutating operation. -/
inductive Op (α : Type) where
  | insert (v : α)
  | remove (v : α)
  | clear

/-- Apply one operation; `none` propagates a panic of `remove`. -/
def applyOp (s : RandSet α) : Op α → Option (RandSet α)
  | .insert v => some (s.insert v).1
  | .remove v => (s.remove v).map Prod.fst
  | .clear => some s.clear

/-- Run a sequence of operations from a given state. -/
def runFrom (s : RandSet α) (ops : List (Op α)) : Option (RandSet α) :=
  ops.foldl (fun acc op => acc.bind fun t => applyOp t op) (some s)

/-- Run a sequence of operations from the empty `RandSet`. -/
def runOps (ops : List (Op α)) : Option (RandSet α) :=
  runFrom RandSet.new ops

/-! ### Association-list lemmas -/

/-- Keys of the map are pairwise distinct (a `HashMap` maintains this
intrinsically; for the association-list model it is derived from I1). -/
def NodupKeys (m : List (α × Nat)) : Prop := (m.map Prod.fst).Nodup

theorem assocGet_mem {m : List (α × Nat)} {k : α} {i : Nat}
    (h : assocGet m k = some i) : (k, i) ∈ m := by
  induction m with
  | nil => simp [assocGet] at h
  | cons e rest ih =>
    obtain ⟨a, b⟩ := e
    by_cases hak : a = k
    · subst hak
      simp [assocGet] at h
      simp [h]
    · simp [assocGet, hak] at h
      exact List.mem_cons_of_mem _ (ih h)

theorem assocGet_eq_none_iff {m : List (α × Nat)} {k : α} :
    assocGet m k = none ↔ k ∉ m.map Prod.fst := by
  induction m with
  | nil => simp [assocGet]
  | cons e rest ih =>
    obtain ⟨a, b⟩ := e
    by_cases hak : a = k
    · subst hak
      simp [assocGet]
    · simp [assocGet, hak, ih, Ne.symm hak]

theorem assocGet_isSome_of_mem {m : List (α × Nat)} {k : α} {i : Nat}
    (h : (k, i) ∈ m) : (assocGet m k).isSome := by
  induction m with
  | nil => simp at h
  | cons e rest ih =>
    obtain ⟨a, b⟩ := e
    by_cases hak : a = k
    · simp [assocGet, hak]
    · rcases List.mem_cons.mp h with h1 | h1
      · exact absurd (congrArg Prod.fst h1).symm hak
      · simpa [assocGet, hak] using ih h1

theorem assocGet_of_mem_nodup {m : List (α × Nat)} {k : α} {i : Nat}
    (hn : NodupKeys m) (h : (k, i) ∈ m) : assocGet m k = some i := by
  induction m with
  | nil => simp at h
  | cons e rest ih =>
    obtain ⟨a, b⟩ := e
    simp only [NodupKeys, List.map_cons, List.nodup_cons] at hn
    rcases List.mem_cons.mp h with h1 | h1
    · cases h1
      simp [assocGet]
    · have hak : a ≠ k := by
        intro hh
        subst hh
        exact hn.1 (List.mem_map_of_mem Prod.fst h1)
      simp [assocGet, hak]
      exact ih hn.2 h1

theorem assocGet_assocInsert_self {m : List (α × Nat)} {k : α} {v : Nat} :
    assocGet (assocInsert m k v) k = some v := by
  induction m with
  | nil => simp [assocInsert, assocGet]
  | cons e rest ih =>
    obtain ⟨a, b⟩ := e
    by_cases hak : a = k
    · simp [assocInsert, assocGet, hak]
    · simp [assocInsert, assocGet, hak, ih]

theorem assocGet_assocInsert_ne {m : List (α × Nat)} {k w : α} {v : Nat}
    (h : w ≠ k) : assocGet (assocInsert m k v) w = assocGet m w := by
  induction m with
  | nil => simp [assocInsert, assocGet, Ne.symm h]
  | cons e rest ih =>
    obtain ⟨a, b⟩ := e
    by_cases hak : a = k
    · have hkw : ¬(k = w) := fun hh => h hh.symm
      have haw : ¬(a = w) := fun hh => h ((hak.symm.trans hh).symm)
      simp only [assocInsert, if_pos hak, assocGet, if_neg hkw, if_neg haw]
    · by_cases haw : a = w
      · simp only [assocInsert, if_neg hak, assocGet, if_pos haw]
      · simp only [assocInsert, if_neg hak, assocGet, if_neg haw]
        exact ih

theorem assocGet_assocRemove_ne {m : List (α × Nat)} {k w : α}
    (h : w ≠ k) : assocGet (assocRemove m k) w = assocGet m w := by
  induction m with
  | nil => simp [assocRemove]
  | cons e rest ih =>
    obtain ⟨a, b⟩ := e
    by_cases hak : a = k
    · have haw : ¬(a = w) := fun hh => h ((hak.symm.trans hh).symm)
      simp only [assocRemove, if_pos hak, assocGet, if_neg haw]
    · by_cases haw : a = w
      · simp only [assocRemove, if_neg hak, assocGet, if_pos haw]
      · simp only [assocRemove, if_neg hak, assocGet, if_neg haw]
        exact ih

theorem assocGet_assocRemove_self {m : List (α × Nat)} {k : α}
    (hn : NodupKeys m) : assocGet (assocRemove m k) k = none := by
  induction m with
  | nil => simp [assocRemove, assocGet]
  | cons e rest ih =>
    obtain ⟨a, b⟩ := e
    simp only [NodupKeys, List.map_cons, List.nodup_cons] at hn
    by_cases hak : a = k
    · subst hak
      simp only [assocRemove, if_pos rfl]
      rw [assocGet_eq_none_iff]
      exact hn.1
    · simp [assocRemove, assocGet, hak]
      exact ih hn.2

theorem length_assocInsert_of_contains {m : List (α × Nat)} {k : α} {v : Nat}
    (h : assocContains m k = true) : (assocInsert m k v).length = m.length := by
  induction m with
  | nil => simp [assocContains, assocGet] at h
  | cons e rest ih =>
    obtain ⟨a, b⟩ := e
    by_cases hak : a = k
    · simp [assocInsert, hak]
    · simp only [assocContains, assocGet, if_neg hak] at h
      simp [assocInsert, hak]
      exact ih h

theorem length_assocRemove_of_contains {m : List (α × Nat)} {k : α}
    (h : assocContains m k = true) : (assocRemove m k).length + 1 = m.length := by
  induction m with
  | nil => simp [assocContains, assocGet] at h
  | cons e rest ih =>
    obtain ⟨a, b⟩ := e
    by_cases hak : a = k
    · simp [assocRemove, hak]
    · simp only [assocContains, assocGet, if_neg hak] at h
      simp [assocRemove, hak]
      exact ih h

theorem assocInsert_of_not_contains {m : List (α × Nat)} {k : α} {v : Nat}
    (h : assocContains m k = false) : assocInsert m k v = m ++ [(k, v)] := by
  induction m with
  | nil => simp [assocInsert]
  | cons e rest ih =>
    obtain ⟨a, b⟩ := e
    by_cases hak : a = k
    · simp [assocContains, assocGet, hak] at h
    · simp only [assocContains, assocGet, if_neg hak] at h
      simp [assocInsert, hak, ih h]

theorem assocRemove_of_not_contains {m : List (α × Nat)} {k : α}
    (h : assocContains m k = false) : assocRemove m k = m := by
  induction m with
  | nil => simp [assocRemove]
  | cons e rest ih =>
    obtain ⟨a, b⟩ := e
    by_cases hak : a = k
    · simp [assocContains, assocGet, hak] at h
    · simp only [assocContains, assocGet, if_neg hak] at h
      simp [assocRemove, hak, ih h]

theorem assocRemove_append_singleton {m : List (α × Nat)} {k : α} {v : Nat}
    (h : assocContains m k = false) : assocRemove (m ++ [(k, v)]) k = m := by
  induction m with
  | nil => simp [assocRemove]
  | cons e rest ih =>
    obtain ⟨a, b⟩ := e
    by_cases hak : a = k
    · simp [assocContains, assocGet, hak] at h
    · simp only [assocContains, assocGet, if_neg hak] at h
      simp [assocRemove, hak, ih h]

theorem mem_assocRemove_of_mem {m : List (α × Nat)} {k : α} {e : α × Nat}
    (h : e ∈ assocRemove m k) : e ∈ m := by
  induction m with
  | nil => simp [assocRemove] at h
  | cons f rest ih =>
    obtain ⟨a, b⟩ := f
    by_cases hak : a = k
    · subst hak
      simp only [assocRemove, if_pos rfl] at h
      exact List.mem_cons_of_mem _ h
    · simp only [assocRemove, if_neg hak] at h
      rcases List.mem_cons.mp h with h1 | h1
      · simp [h1]
      · exact List.mem_cons_of_mem _ (ih h1)

theorem mem_assocRemove_iff {m : List (α × Nat)} {k : α} {e : α × Nat}
    (hn : NodupKeys m) : e ∈ assocRemove m k ↔ e ∈ m ∧ e.1 ≠ k := by
  induction m with
  | nil => simp [assocRemove]
  | cons f rest ih =>
    obtain ⟨a, b⟩ := f
    simp only [NodupKeys, List.map_cons, List.nodup_cons] at hn
    by_cases hak : a = k
    · subst hak
      simp only [assocRemove, if_pos rfl]
      constructor
      · intro h
        refine ⟨List.mem_cons_of_mem _ h, ?_⟩
        intro hek
        exact hn.1 (hek ▸ List.mem_map_of_mem Prod.fst h)
      · intro ⟨h1, h2⟩
        rcases List.mem_cons.mp h1 with h3 | h3
        · exact absurd (congrArg Prod.fst h3) h2
        · exact h3
    · simp only [assocRemove, if_neg hak, List.mem_cons, ih hn.2]
      constructor
      · rintro (h | ⟨h1, h2⟩)
        · subst h
          exact ⟨Or.inl rfl, hak⟩
        · exact ⟨Or.inr h1, h2⟩
      · rintro ⟨h1 | h1, h2⟩
        · exact Or.inl h1
        · exact Or.inr ⟨h1, h2⟩

theorem mem_assocInsert_iff {m : List (α × Nat)} {k : α} {v : Nat} {e : α × Nat}
    (hn : NodupKeys m) :
    e ∈ assocInsert m k v ↔ e = (k, v) ∨ (e ∈ m ∧ e.1 ≠ k) := by
  induction m with
  | nil => simp [assocInsert]
  | cons f rest ih =>
    obtain ⟨a, b⟩ := f
    simp only [NodupKeys, List.map_cons, List.nodup_cons] at hn
    by_cases hak : a = k
    · simp only [assocInsert, if_pos hak, List.mem_cons]
      constructor
      · rintro (h | h)
        · exact Or.inl h
        · refine Or.inr ⟨Or.inr h, ?_⟩
          intro hek
          apply hn.1
          rw [hak, ← hek]
          exact List.mem_map_of_mem Prod.fst h
      · rintro (h | ⟨h1 | h1, h2⟩)
        · exact Or.inl h
        · exact absurd ((congrArg Prod.fst h1).trans hak) h2
        · exact Or.inr h1
    · simp only [assocInsert, if_neg hak, List.mem_cons, ih hn.2]
      constructor
      · rintro (h | h | ⟨h1, h2⟩)
        · subst h
          exact Or.inr ⟨Or.inl rfl, hak⟩
        · exact Or.inl h
        · exact Or.inr ⟨Or.inr h1, h2⟩
      · rintro (h | ⟨h1 | h1, h2⟩)
        · exact Or.inr (Or.inl h)
        · exact Or.inl h1
        · exact Or.inr (Or.inr ⟨h1, h2⟩)

theorem nodupKeys_assocInsert {m : List (α × Nat)} {k : α} {v : Nat}
    (hn : NodupKeys m) : NodupKeys (assocInsert m k v) := by
  induction m with
  | nil => simp [assocInsert, NodupKeys]
  | cons f rest ih =>
    obtain ⟨a, b⟩ := f
    simp only [NodupKeys, List.map_cons, List.nodup_cons] at hn
    by_cases hak : a = k
    · simp only [NodupKeys, assocInsert, if_pos hak, List.map_cons, List.nodup_cons]
      refine ⟨?_, hn.2⟩
      rw [← hak]
      exact hn.1
    · have step := ih hn.2
      simp only [NodupKeys, assocInsert, if_neg hak, List.map_cons, List.nodup_cons]
      refine ⟨?_, step⟩
      intro hmem
      rcases List.mem_map.mp hmem with ⟨e, he, hfst⟩
      rcases (mem_assocInsert_iff hn.2).mp he with h1 | ⟨h1, _⟩
      · subst h1
        exact hak hfst.symm
      · exact hn.1 (hfst ▸ List.mem_map_of_mem Prod.fst h1)

theorem nodupKeys_assocRemove {m : List (α × Nat)} {k : α}
    (hn : NodupKeys m) : NodupKeys (assocRemove m k) := by
  induction m with
  | nil => simp [assocRemove, NodupKeys]
  | cons f rest ih =>
    obtain ⟨a, b⟩ := f
    simp only [NodupKeys, List.map_cons, List.nodup_cons] at hn
    by_cases hak : a = k
    · subst hak
      simp only [assocRemove, if_pos rfl]
      exact hn.2
    · have step := ih hn.2
      simp only [NodupKeys, assocRemove, if_neg hak, List.map_cons, List.nodup_cons]
      refine ⟨?_, step⟩
      intro hmem
      rcases List.mem_map.mp hmem with ⟨e, he, hfst⟩
      exact hn.1 (hfst ▸ List.mem_map_of_mem Prod.fst (mem_assocRemove_of_mem he))

theorem assocGet_append_left {m m2 : List (α × Nat)} {k : α} {i : Nat}
    (h : assocGet m k = some i) : assocGet (m ++ m2) k = some i := by
  induction m with
  | nil => simp [assocGet] at h
  | cons e rest ih =>
    obtain ⟨a, b⟩ := e
    by_cases hak : a = k
    · simp only [assocGet, if_pos hak] at h ⊢
      exact h
    · simp only [assocGet, if_neg hak, List.cons_append] at h ⊢
      exact ih h

theorem assocGet_append_right {m m2 : List (α × Nat)} {k : α}
    (h : assocGet m k = none) : assocGet (m ++ m2) k = assocGet m2 k := by
  induction m with
  | nil => simp
  | cons e rest ih =>
    obtain ⟨a, b⟩ := e
    by_cases hak : a = k
    · simp [assocGet, hak] at h
    · simp only [assocGet, if_neg hak, List.cons_append] at h ⊢
      exact ih h

/-! ### List lemmas: swap and dropLast -/

theorem length_listSwap {β : Type} (l : List β) (i j : Nat) :
    (listSwap l i j).length = l.length := by
  unfold listSwap
  rcases hi : l[i]? with _ | a <;> rcases hj : l[j]? with _ | b <;> simp

theorem getElem?_listSwap_left {β : Type} {l : List β} {i j : Nat}
    (hi : i < l.length) (hj : j < l.length) (hij : i ≠ j) :
    (listSwap l i j)[i]? = l[j]? := by
  rcases List.getElem?_eq_some_iff.mpr ⟨hi, rfl⟩ with hgi
  rcases List.getElem?_eq_some_iff.mpr ⟨hj, rfl⟩ with hgj
  unfold listSwap
  rw [hgi, hgj]
  simp only
  rw [List.getElem?_set_ne (fun hh => hij hh.symm), List.getElem?_set_self (by simpa using hi)]

theorem getElem?_listSwap_right {β : Type} {l : List β} {i j : Nat}
    (hi : i < l.length) (hj : j < l.length) :
    (listSwap l i j)[j]? = l[i]? := by
  rcases List.getElem?_eq_some_iff.mpr ⟨hi, rfl⟩ with hgi
  rcases List.getElem?_eq_some_iff.mpr ⟨hj, rfl⟩ with hgj
  unfold listSwap
  rw [hgi, hgj]
  simp only
  rw [List.getElem?_set_self (by simpa using hj)]

theorem getElem?_listSwap_other {β : Type} {l : List β} {i j r : Nat}
    (hri : r ≠ i) (hrj : r ≠ j) :
    (listSwap l i j)[r]? = l[r]? := by
  unfold listSwap
  rcases hi : l[i]? with _ | a <;> rcases hj : l[j]? with _ | b <;> try rfl
  rw [List.getElem?_set_ne (fun hh => hrj hh.symm), List.getElem?_set_ne (fun hh => hri hh.symm)]

theorem getElem?_dropLast_of_lt {β : Type} {l : List β} {i : Nat}
    (h : i < l.length - 1) : l.dropLast[i]? = l[i]? := by
  rw [List.getElem?_eq_getElem (by simp; omega), List.getElem?_eq_getElem (by omega)]
  simp [List.getElem_dropLast]

/-! ### Consequences of I1 -/

theorem I1_get_of_getElem? {s : RandSet α} (h : I1 s) {i : Nat} {v : α}
    (hv : s.items_vector[i]? = some v) :
    assocGet s.values_to_index v = some i := by
  refine h.2.2 (i, v) ?_
  rw [List.mk_mem_enum_iff_getElem?]
  exact hv

theorem I1_getElem?_of_mem {s : RandSet α} (h : I1 s) {e : α × Nat}
    (he : e ∈ s.values_to_index) : s.items_vector[e.2]? = some e.1 :=
  h.2.1 e he

theorem I1_nodup_items {s : RandSet α} (h : I1 s) : s.items_vector.Nodup := by
  rw [List.nodup_iff_getElem?_ne_getElem?]
  intro i j hij hj hne
  rcases hv : s.items_vector[j]? with _ | v
  · rw [List.getElem?_eq_some_iff.mpr ⟨hj, rfl⟩] at hv
    cases hv
  · rw [hv] at hne
    have h1 := I1_get_of_getElem? h hne
    have h2 := I1_get_of_getElem? h hv
    rw [h1] at h2
    cases h2
    omega

theorem nodup_of_cover {β : Type} {l k : List β} (hl : l.Nodup)
    (hsub : ∀ x ∈ l, x ∈ k) (hlen : k.length = l.length) : k.Nodup := by
  classical
  have h1 : l.toFinset ⊆ k.toFinset := by
    intro x hx
    simp only [List.mem_toFinset] at hx ⊢
    exact hsub x hx
  have h2 : l.toFinset.card = l.length := List.toFinset_card_of_nodup hl
  have h3 : k.toFinset.card = k.dedup.length := rfl
  have h4 : l.toFinset.card ≤ k.toFinset.card := Finset.card_le_card h1
  have hs : List.Sublist k.dedup k := k.dedup_sublist
  have h5 : k.dedup.length ≤ k.length := hs.length_le
  have h6 : k.dedup = k := List.Sublist.eq_of_length hs (by omega)
  rw [← h6]
  exact k.nodup_dedup

theorem I1_nodupKeys {s : RandSet α} (h : I1 s) : NodupKeys s.values_to_index := by
  refine nodup_of_cover (I1_nodup_items h) ?_ ?_
  · intro x hx
    rcases List.getElem_of_mem hx with ⟨i, hi, hix⟩
    have hg : s.items_vector[i]? = some x := List.getElem?_eq_some_iff.mpr ⟨hi, hix⟩
    have := I1_get_of_getElem? h hg
    exact List.mem_map_of_mem Prod.fst (assocGet_mem this)
  · rw [List.length_map]
    exact h.1

theorem I1_mem_iff_contains {s : RandSet α} (h : I1 s) {v : α} :
    v ∈ s.items_vector ↔ s.contains v = true := by
  constructor
  · intro hv
    rcases List.getElem_of_mem hv with ⟨i, hi, hix⟩
    have hg : s.items_vector[i]? = some v := List.getElem?_eq_some_iff.mpr ⟨hi, hix⟩
    have := I1_get_of_getElem? h hg
    simp [RandSet.contains, assocContains, this]
  · intro hv
    simp only [RandSet.contains, assocContains, Option.isSome_iff_exists] at hv
    rcases hv with ⟨i, hi⟩
    have := I1_getElem?_of_mem h (assocGet_mem hi)
    exact List.getElem?_mem this

theorem I1_index_lt {s : RandSet α} (h : I1 s) {v : α} {p : Nat}
    (hg : assocGet s.values_to_index v = some p) :
    p < s.items_vector.length ∧ s.items_vector[p]? = some v := by
  have hmem := assocGet_mem hg
  have := I1_getElem?_of_mem h hmem
  exact ⟨(List.getElem?_eq_some_iff.mp this).1, this⟩

/-! ### Computation lemmas for insert and remove -/

theorem assocContains_eq_false_iff {m : List (α × Nat)} {k : α} :
    assocContains m k = false ↔ assocGet m k = none := by
  rcases hg : assocGet m k with _ | i <;> simp [assocContains, hg]

theorem insert_of_contains {s : RandSet α} {v : α}
    (h : assocContains s.values_to_index v = true) : s.insert v = (s, false) := by
  simp [RandSet.insert, h]

theorem insert_of_not_contains {s : RandSet α} {v : α}
    (h : assocContains s.values_to_index v = false) :
    s.insert v = (⟨s.values_to_index ++ [(v, s.items_vector.length)],
      s.items_vector ++ [v]⟩, true) := by
  simp [RandSet.insert, h, assocInsert_of_not_contains h]

theorem remove_of_get_none {s : RandSet α} {v : α}
    (h : assocGet s.values_to_index v = none) : s.remove v = some (s, false) := by
  simp [RandSet.remove, h]

theorem remove_of_get_last {s : RandSet α} {v : α} {p : Nat}
    (hg : assocGet s.values_to_index v = some p) (hp : p + 1 = s.items_vector.length) :
    s.remove v =
      some (⟨assocRemove s.values_to_index v, s.items_vector.dropLast⟩, true) := by
  have h0 : ¬(s.items_vector.length = 0) := by omega
  have hlast : p = s.items_vector.length - 1 := by omega
  simp [RandSet.remove, hg, h0, hlast]

theorem remove_of_get_swap {s : RandSet α} {v u : α} {p : Nat}
    (hg : assocGet s.values_to_index v = some p) (hp : p + 1 < s.items_vector.length)
    (hu : (listSwap s.items_vector p (s.items_vector.length - 1))[p]? = some u) :
    s.remove v =
      some (⟨assocRemove (assocInsert s.values_to_index u p) v,
             (listSwap s.items_vector p (s.items_vector.length - 1)).dropLast⟩, true) := by
  have h0 : ¬(s.items_vector.length = 0) := by omega
  have hlast : ¬(p = s.items_vector.length - 1) := by omega
  have hplt : p < s.items_vector.length := by omega
  simp [RandSet.remove, hg, h0, hlast, hplt, hu]

/-! ### I1 preservation -/

theorem I1_new : I1 (RandSet.new (α := α)) := by
  refine ⟨rfl, ?_, ?_⟩ <;> intro e he <;> simp [RandSet.new] at he

theorem I1_clear (s : RandSet α) : I1 s.clear := by
  refine ⟨rfl, ?_, ?_⟩ <;> intro e he <;> simp [RandSet.clear] at he

theorem I1_insert {s : RandSet α} (h : I1 s) (v : α) : I1 (s.insert v).1 := by
  rcases hc : assocContains s.values_to_index v with _ | _
  · rw [insert_of_not_contains hc]
    have hgn : assocGet s.values_to_index v = none := assocContains_eq_false_iff.mp hc
    refine ⟨?_, ?_, ?_⟩
    · simp [h.1]
    · intro e he
      simp only at he ⊢
      rcases List.mem_append.mp he with h1 | h1
      · rw [List.getElem?_append_left]
        · exact I1_getElem?_of_mem h h1
        · exact (List.getElem?_eq_some_iff.mp (I1_getElem?_of_mem h h1)).1
      · rcases List.mem_singleton.mp h1 with rfl
        exact List.getElem?_concat_length _ _
    · intro q hq
      obtain ⟨i, w⟩ := q
      have hiw : (s.items_vector ++ [v])[i]? = some w :=
        List.mk_mem_enum_iff_getElem?.mp hq
      have hilt : i < s.items_vector.length + 1 := by
        have := (List.getElem?_eq_some_iff.mp hiw).1
        simpa using this
      simp only
      by_cases hi : i < s.items_vector.length
      · rw [List.getElem?_append_left hi] at hiw
        exact assocGet_append_left (I1_get_of_getElem? h hiw)
      · have hieq : i = s.items_vector.length := by omega
        subst hieq
        rw [List.getElem?_concat_length] at hiw
        cases hiw
        rw [assocGet_append_right hgn]
        simp [assocGet]
  · rw [insert_of_contains hc]
    exact h

theorem I1_remove_last {s : RandSet α} {v : α} {p : Nat} (h : I1 s)
    (hg : assocGet s.values_to_index v = some p) (hp : p + 1 = s.items_vector.length) :
    I1 (⟨assocRemove s.values_to_index v, s.items_vector.dropLast⟩ : RandSet α) := by
  have hk : NodupKeys s.values_to_index := I1_nodupKeys h
  have hcont : assocContains s.values_to_index v = true := by
    simp [assocContains, hg]
  have hpv : s.items_vector[p]? = some v := (I1_index_lt h hg).2
  refine ⟨?_, ?_, ?_⟩
  · simp only [List.length_dropLast]
    have := length_assocRemove_of_contains hcont
    have h1 := h.1
    omega
  · intro e he
    simp only at he ⊢
    rcases (mem_assocRemove_iff hk).mp he with ⟨hem, hev⟩
    have hl := I1_getElem?_of_mem h hem
    have he2 : e.2 ≠ p := by
      intro hh
      rw [hh, hpv] at hl
      exact hev ((Option.some.inj hl).symm)
    have helt : e.2 < s.items_vector.length := (List.getElem?_eq_some_iff.mp hl).1
    rw [getElem?_dropLast_of_lt (by omega)]
    exact hl
  · intro q hq
    obtain ⟨i, w⟩ := q
    have hiw : s.items_vector.dropLast[i]? = some w :=
      List.mk_mem_enum_iff_getElem?.mp hq
    have hilt : i < s.items_vector.length - 1 := by
      have := (List.getElem?_eq_some_iff.mp hiw).1
      simpa using this
    rw [getElem?_dropLast_of_lt hilt] at hiw
    have hgw := I1_get_of_getElem? h hiw
    have hwv : w ≠ v := by
      intro hh
      rw [hh, hg] at hgw
      cases hgw
      omega
    simp only
    rw [assocGet_assocRemove_ne hwv]
    exact hgw

theorem I1_remove_swap {s : RandSet α} {v u : α} {p : Nat} (h : I1 s)
    (hg : assocGet s.values_to_index v = some p) (hp : p + 1 < s.items_vector.length)
    (hu : s.items_vector[s.items_vector.length - 1]? = some u) :
    I1 (⟨assocRemove (assocInsert s.values_to_index u p) v,
         (listSwap s.items_vector p (s.items_vector.length - 1)).dropLast⟩ :
        RandSet α) := by
  have hk : NodupKeys s.values_to_index := I1_nodupKeys h
  have hpv : s.items_vector[p]? = some v := (I1_index_lt h hg).2
  have hplt : p < s.items_vector.length := (I1_index_lt h hg).1
  have hnlt : s.items_vector.length - 1 < s.items_vector.length := by omega
  have hpn : p ≠ s.items_vector.length - 1 := by omega
  have hgu : assocGet s.values_to_index u = some (s.items_vector.length - 1) :=
    I1_get_of_getElem? h hu
  have huv : u ≠ v := by
    intro hh
    rw [hh, hg] at hgu
    cases hgu
    omega
  have hcontu : assocContains s.values_to_index u = true := by
    simp [assocContains, hgu]
  have hk1 : NodupKeys (assocInsert s.values_to_index u p) := nodupKeys_assocInsert hk
  have hgv1 : assocGet (assocInsert s.values_to_index u p) v =
      assocGet s.values_to_index v := assocGet_assocInsert_ne (Ne.symm huv)
  have hcontv1 : assocContains (assocInsert s.values_to_index u p) v = true := by
    simp [assocContains, hgv1, hg]
  have hswlen : (listSwap s.items_vector p (s.items_vector.length - 1)).length =
      s.items_vector.length := length_listSwap _ _ _
  have hswp : (listSwap s.items_vector p (s.items_vector.length - 1))[p]? = some u := by
    rw [getElem?_listSwap_left hplt hnlt hpn]
    exact hu
  have hswother : ∀ r, r ≠ p → r ≠ s.items_vector.length - 1 →
      (listSwap s.items_vector p (s.items_vector.length - 1))[r]? =
        s.items_vector[r]? :=
    fun r hrp hrn => getElem?_listSwap_other hrp hrn
  refine ⟨?_, ?_, ?_⟩
  · simp only [List.length_dropLast, hswlen]
    have h2 := length_assocRemove_of_contains hcontv1
    have h3 := length_assocInsert_of_contains (v := p) hcontu
    have h1 := h.1
    omega
  · intro e he
    simp only at he ⊢
    rcases (mem_assocRemove_iff hk1).mp he with ⟨hem, hev⟩
    rcases (mem_assocInsert_iff hk).mp hem with h1 | ⟨h1, h2⟩
    · subst h1
      rw [getElem?_dropLast_of_lt (by omega : p < _ - 1)]
      exact hswp
    · have hl := I1_getElem?_of_mem h h1
      have he2p : e.2 ≠ p := by
        intro hh
        rw [hh, hpv] at hl
        exact hev ((Option.some.inj hl).symm)
      have he2n : e.2 ≠ s.items_vector.length - 1 := by
        intro hh
        rw [hh, hu] at hl
        exact h2 ((Option.some.inj hl).symm)
      have helt : e.2 < s.items_vector.length := (List.getElem?_eq_some_iff.mp hl).1
      rw [getElem?_dropLast_of_lt (by omega), hswother e.2 he2p he2n]
      exact hl
  · intro q hq
    obtain ⟨i, w⟩ := q
    have hiw :
        (listSwap s.items_vector p (s.items_vector.length - 1)).dropLast[i]? = some w :=
      List.mk_mem_enum_iff_getElem?.mp hq
    have hilt : i < s.items_vector.length - 1 := by
      have := (List.getElem?_eq_some_iff.mp hiw).1
      simp only [List.length_dropLast, hswlen] at this
      exact this
    rw [getElem?_dropLast_of_lt (by omega)] at hiw
    simp only
    by_cases hip : i = p
    · subst hip
      rw [hswp] at hiw
      cases hiw
      rw [assocGet_assocRemove_ne huv]
      exact assocGet_assocInsert_self
    · rw [hswother i hip (by omega)] at hiw
      have hgw := I1_get_of_getElem? h hiw
      have hwv : w ≠ v := by
        intro hh
        rw [hh, hg] at hgw
        cases hgw
        exact hip rfl
      have hwu : w ≠ u := by
        intro hh
        rw [hh, hgu] at hgw
        cases hgw
        omega
      rw [assocGet_assocRemove_ne hwv, assocGet_assocInsert_ne hwu]
      exact hgw

/-- Under I1, `remove` never panics and preserves I1; when the value is found
the length drops by one and the value is no longer a key. -/
theorem remove_total {s : RandSet α} (h : I1 s) (v : α) :
    ∃ s' b, s.remove v = some (s', b) ∧ I1 s' := by
  rcases hg : assocGet s.values_to_index v with _ | p
  · exact ⟨s, false, remove_of_get_none hg, h⟩
  · have hplt : p < s.items_vector.length := (I1_index_lt h hg).1
    by_cases hp : p + 1 = s.items_vector.length
    · exact ⟨_, true, remove_of_get_last hg hp, I1_remove_last h hg hp⟩
    · have hp2 : p + 1 < s.items_vector.length := by omega
      have hnlt : s.items_vector.length - 1 < s.items_vector.length := by omega
      rcases hu : s.items_vector[s.items_vector.length - 1]? with _ | u
      · rw [List.getElem?_eq_some_iff.mpr ⟨hnlt, rfl⟩] at hu
        cases hu
      · have hswp : (listSwap s.items_vector p (s.items_vector.length - 1))[p]? =
            some u := by
          rw [getElem?_listSwap_left hplt hnlt (by omega)]
          exact hu
        exact ⟨_, true, remove_of_get_swap hg hp2 hswp, I1_remove_swap h hg hp2 hu⟩

theorem foldl_bind_none (ops : List (Op α)) :
    ops.foldl (fun acc op => acc.bind fun t => applyOp t op) none = none := by
  induction ops with
  | nil => rfl
  | cons op rest ih => exact ih

theorem runFrom_cons (s : RandSet α) (op : Op α) (ops : List (Op α)) :
    runFrom s (op :: ops) = (applyOp s op).bind fun t => runFrom t ops := by
  rcases ha : applyOp s op with _ | t
  · simp only [runFrom, List.foldl_cons, Option.some_bind, ha, Option.none_bind]
    exact foldl_bind_none ops
  · simp only [runFrom, List.foldl_cons, Option.some_bind, ha]

theorem runFrom_I1 (ops : List (Op α)) :
    ∀ {s : RandSet α}, I1 s → ∃ s', runFrom s ops = some s' ∧ I1 s' := by
  induction ops with
  | nil =>
    intro s h
    exact ⟨s, rfl, h⟩
  | cons op rest ih =>
    intro s h
    rcases op with v | v | _
    · rcases ih (I1_insert h v) with ⟨s', h1, h2⟩
      refine ⟨s', ?_, h2⟩
      rw [runFrom_cons]
      simpa [applyOp] using h1
    · rcases remove_total h v with ⟨t, b, hr, ht⟩
      rcases ih ht with ⟨s', h1, h2⟩
      refine ⟨s', ?_, h2⟩
      rw [runFrom_cons]
      simpa [applyOp, hr] using h1
    · rcases ih (I1_clear s) with ⟨s', h1, h2⟩
      refine ⟨s', ?_, h2⟩
      rw [runFrom_cons]
      simpa [applyOp] using h1

/-- Master specification of `remove` under I1: it never panics, preserves I1,
returns true exactly when the value was present, removes it, and shrinks the
length by one; on a miss it leaves the state untouched. -/
theorem remove_spec {s : RandSet α} (h : I1 s) (v : α) :
    ∃ s' b, s.remove v = some (s', b) ∧ I1 s' ∧
      (b = true ↔ s.contains v = true) ∧
      (b = false → s' = s) ∧
      (b = true → s'.contains v = false ∧
        s'.items_vector.length + 1 = s.items_vector.length) := by
  have hk : NodupKeys s.values_to_index := I1_nodupKeys h
  rcases hg : assocGet s.values_to_index v with _ | p
  · refine ⟨s, false, remove_of_get_none hg, h, ?_, fun _ => rfl, by simp⟩
    simp [RandSet.contains, assocContains, hg]
  · have hconT : s.contains v = true := by
      simp [RandSet.contains, assocContains, hg]
    have hplt : p < s.items_vector.length := (I1_index_lt h hg).1
    by_cases hp : p + 1 = s.items_vector.length
    · refine ⟨_, true, remove_of_get_last hg hp, I1_remove_last h hg hp, by simp [hconT],
        by simp, fun _ => ⟨?_, ?_⟩⟩
      · simp only [RandSet.contains, assocContains]
        rw [assocGet_assocRemove_self hk]
        rfl
      · simp only [List.length_dropLast]
        omega
    · have hp2 : p + 1 < s.items_vector.length := by omega
      have hnlt : s.items_vector.length - 1 < s.items_vector.length := by omega
      rcases hu : s.items_vector[s.items_vector.length - 1]? with _ | u
      · rw [List.getElem?_eq_some_iff.mpr ⟨hnlt, rfl⟩] at hu
        cases hu
      · have hswp : (listSwap s.items_vector p (s.items_vector.length - 1))[p]? =
            some u := by
          rw [getElem?_listSwap_left hplt hnlt (by omega)]
          exact hu
        refine ⟨_, true, remove_of_get_swap hg hp2 hswp, I1_remove_swap h hg hp2 hu,
          by simp [hconT], by simp, fun _ => ⟨?_, ?_⟩⟩
        · simp only [RandSet.contains, assocContains]
          rw [assocGet_assocRemove_self (nodupKeys_assocInsert hk)]
          rfl
        · simp only [List.length_dropLast, length_listSwap]
          omega

/-! ### Claims -/

/-- C1: for every finite sequence of public operations (insert, remove, clear)
applied to an initially empty RandSet, each operation returns (no panic) and
after it the bijection invariant I1 holds. -/
theorem claim_C1 (ops : List (Op α)) : ∃ s, runOps ops = some s ∧ I1 s :=
  runFrom_I1 ops I1_new

/-- C2: under I1, inserting a present value is a no-op returning false;
inserting an absent value appends it at position `len`, records `(v, len)` in
the map, returns true and grows the length by exactly 1; a second insert of the
same value returns false and leaves the length unchanged. -/
theorem claim_C2 {s : RandSet α} (h : I1 s) (v : α) :
    (s.contains v = true → s.insert v = (s, false)) ∧
    (s.contains v = false →
      (s.insert v).2 = true ∧
      (s.insert v).1.items_vector = s.items_vector ++ [v] ∧
      assocGet (s.insert v).1.values_to_index v = some s.items_vector.length ∧
      (s.insert v).1.len = s.len + 1) ∧
    (((s.insert v).1.insert v).2 = false ∧
      ((s.insert v).1.insert v).1.len = (s.insert v).1.len) := by
  have hcc : assocContains (s.insert v).1.values_to_index v = true := by
    rcases hc : assocContains s.values_to_index v with _ | _
    · rw [insert_of_not_contains hc]
      simp only [assocContains]
      rw [assocGet_append_right (assocContains_eq_false_iff.mp hc)]
      simp [assocGet]
    · rw [insert_of_contains hc]
      exact hc
  refine ⟨?_, ?_, ?_⟩
  · intro hc
    exact insert_of_contains hc
  · intro hc
    rw [insert_of_not_contains hc]
    refine ⟨rfl, rfl, ?_, ?_⟩
    · simp only
      rw [assocGet_append_right (assocContains_eq_false_iff.mp hc)]
      simp [assocGet]
    · simp [RandSet.len]
  · rw [insert_of_contains hcc]
    exact ⟨rfl, rfl⟩

/-- C3: under I1, `remove v` returns (no panic); it returns true iff
`contains v` held before; on success `contains v` is false afterwards and the
length decreased by exactly 1; on a miss the state is unchanged. -/
theorem claim_C3 {s : RandSet α} (h : I1 s) (v : α) :
    ∃ s' b, s.remove v = some (s', b) ∧
      (b = true ↔ s.contains v = true) ∧
      (b = true → s'.contains v = false ∧ s'.len + 1 = s.len) ∧
      (b = false → s' = s) := by
  rcases remove_spec h v with ⟨s', b, h1, _, h2, h3, h4⟩
  exact ⟨s', b, h1, h2, fun hb => (h4 hb), h3⟩

/-- C5: `get_rand` returns nothing on the empty structure; on a non-empty
structure, for every index the random source may draw (any index below the
length) it returns the Dense Store element at that index, which is contained
in the structure; and every live element is a possible return value. -/
theorem claim_C5 {s : RandSet α} (h : I1 s) :
    (s.items_vector = [] → ∀ idx, s.get_rand idx = none) ∧
    (∀ idx, idx < s.len → ∃ w, s.get_rand idx = some w ∧
      s.items_vector[idx]? = some w ∧ w ∈ s.items_vector ∧ s.contains w = true) ∧
    (∀ w ∈ s.items_vector, ∃ idx, idx < s.len ∧ s.get_rand idx = some w) := by
  refine ⟨?_, ?_, ?_⟩
  · intro he idx
    simp [RandSet.get_rand, he]
  · intro idx hidx
    have hlen : idx < s.items_vector.length := hidx
    have hne : s.items_vector.isEmpty = false := by
      rcases hl : s.items_vector with _ | _
      · rw [hl] at hlen
        simp at hlen
      · rfl
    have hget : s.items_vector[idx]? = some (s.items_vector.get ⟨idx, hlen⟩) :=
      List.getElem?_eq_some_iff.mpr ⟨hlen, rfl⟩
    refine ⟨s.items_vector.get ⟨idx, hlen⟩, ?_, hget, ?_, ?_⟩
    · simp [RandSet.get_rand, hne, hget]
    · exact List.get_mem _ _ _
    · rw [← I1_mem_iff_contains h]
      exact List.get_mem _ _ _
  · intro w hw
    rcases List.getElem_of_mem hw with ⟨i, hi, hix⟩
    have hne : s.items_vector.isEmpty = false := by
      rcases hl : s.items_vector with _ | _
      · rw [hl] at hw
        simp at hw
      · rfl
    refine ⟨i, hi, ?_⟩
    simp [RandSet.get_rand, hne, List.getElem?_eq_some_iff.mpr ⟨hi, hix⟩]

/-- C6: under I1, a successful membership lookup in `remove` guarantees the
Dense Store is non-empty, `len - 1` cannot underflow, the looked-up position
and the last position are in bounds, and `remove` completes without panicking
(returning true). -/
theorem claim_C6 {s : RandSet α} (h : I1 s) {v : α} {p : Nat}
    (hg : assocGet s.values_to_index v = some p) :
    0 < s.items_vector.length ∧ p < s.items_vector.length ∧
      s.items_vector.length - 1 < s.items_vector.length ∧
      ∃ s', s.remove v = some (s', true) := by
  have hplt := (I1_index_lt h hg).1
  refine ⟨by omega, hplt, by omega, ?_⟩
  rcases remove_spec h v with ⟨s', b, h1, _, h2, _, _⟩
  have hb : b = true := h2.mpr (by simp [RandSet.contains, assocContains, hg])
  exact ⟨s', hb ▸ h1⟩

/-- C7: under I1, for a value not already present, `insert v` followed by
`remove v` restores the exact prior state (both fields). -/
theorem claim_C7 {s : RandSet α} (h : I1 s) {v : α} (hv : s.contains v = false) :
    (s.insert v).1.remove v = some (s, true) := by
  have hc : assocContains s.values_to_index v = false := hv
  have hgn : assocGet s.values_to_index v = none := assocContains_eq_false_iff.mp hc
  rw [insert_of_not_contains hc]
  have hg1 : assocGet (s.values_to_index ++ [(v, s.items_vector.length)]) v =
      some s.items_vector.length := by
    rw [assocGet_append_right hgn]
    simp [assocGet]
  rw [remove_of_get_last hg1 (by simp)]
  rw [assocRemove_append_singleton hc, List.dropLast_concat]

/-- C9: under I1, `len()` is the Dense Store's length, and `is_empty()`
(computed from the Index Map) agrees with `len() == 0`. -/
theorem claim_C9 {s : RandSet α} (h : I1 s) :
    s.len = s.items_vector.length ∧ (s.is_empty = true ↔ s.len = 0) := by
  refine ⟨rfl, ?_⟩
  simp only [RandSet.is_empty, RandSet.len, List.isEmpty_iff]
  constructor
  · intro hm
    have h1 := h.1
    rw [hm] at h1
    simpa using h1.symm
  · intro hl
    have h1 := h.1
    rw [hl] at h1
    exact List.length_eq_zero.mp h1

/-- C4: under I1, when `remove v` succeeds with `v` at position `p` and
`last = len - 1`: if `p ≠ last`, the value formerly at `last` ends up at `p`,
its map entry is overwritten (not duplicated: the map shrinks by exactly one
entry) to point to `p`, and every other surviving element keeps its position
and map entry; if `p = last`, no swap occurs and every surviving element keeps
its position and map entry. -/
theorem claim_C4 {s : RandSet α} (h : I1 s) {v : α} {p : Nat}
    (hg : assocGet s.values_to_index v = some p) :
    (p ≠ s.items_vector.length - 1 →
      ∃ s' u, s.remove v = some (s', true) ∧
        s.items_vector[s.items_vector.length - 1]? = some u ∧
        s'.items_vector[p]? = some u ∧
        assocGet s'.values_to_index u = some p ∧
        s'.values_to_index.length + 1 = s.values_to_index.length ∧
        (∀ i, i < s.items_vector.length - 1 → i ≠ p →
          s'.items_vector[i]? = s.items_vector[i]?) ∧
        (∀ w, w ≠ v → w ≠ u →
          assocGet s'.values_to_index w = assocGet s.values_to_index w)) ∧
    (p = s.items_vector.length - 1 →
      ∃ s', s.remove v = some (s', true) ∧
        (∀ i, i < s.items_vector.length - 1 →
          s'.items_vector[i]? = s.items_vector[i]?) ∧
        (∀ w, w ≠ v →
          assocGet s'.values_to_index w = assocGet s.values_to_index w)) := by
  have hk : NodupKeys s.values_to_index := I1_nodupKeys h
  have hplt : p < s.items_vector.length := (I1_index_lt h hg).1
  have hcontv : assocContains s.values_to_index v = true := by
    simp [assocContains, hg]
  constructor
  · intro hpn
    have hp2 : p + 1 < s.items_vector.length := by omega
    have hnlt : s.items_vector.length - 1 < s.items_vector.length := by omega
    rcases hu : s.items_vector[s.items_vector.length - 1]? with _ | u
    · rw [List.getElem?_eq_some_iff.mpr ⟨hnlt, rfl⟩] at hu
      cases hu
    · have hswp : (listSwap s.items_vector p (s.items_vector.length - 1))[p]? =
          some u := by
        rw [getElem?_listSwap_left hplt hnlt (by omega)]
        exact hu
      have hgu : assocGet s.values_to_index u = some (s.items_vector.length - 1) :=
        I1_get_of_getElem? h hu
      have huv : u ≠ v := by
        intro hh
        rw [hh, hg] at hgu
        cases hgu
        omega
      have hcontu : assocContains s.values_to_index u = true := by
        simp [assocContains, hgu]
      have hswlen : (listSwap s.items_vector p (s.items_vector.length - 1)).length =
          s.items_vector.length := length_listSwap _ _ _
      refine ⟨_, u, remove_of_get_swap hg hp2 hswp, rfl, ?_, ?_, ?_, ?_, ?_⟩
      · simp only
        rw [getElem?_dropLast_of_lt (by rw [hswlen]; omega)]
        exact hswp
      · simp only
        rw [assocGet_assocRemove_ne huv]
        exact assocGet_assocInsert_self
      · simp only
        have h1 := length_assocRemove_of_contains (k := v)
          (m := assocInsert s.values_to_index u p) (by
            simp [assocContains, assocGet_assocInsert_ne (Ne.symm huv), hg])
        have h2 := length_assocInsert_of_contains (v := p) hcontu
        omega
      · intro i hi hip
        simp only
        rw [getElem?_dropLast_of_lt (by rw [hswlen]; omega)]
        exact getElem?_listSwap_other hip (by omega)
      · intro w hwv hwu
        simp only
        rw [assocGet_assocRemove_ne hwv, assocGet_assocInsert_ne hwu]
  · intro hpl
    have hp1 : p + 1 = s.items_vector.length := by omega
    refine ⟨_, remove_of_get_last hg hp1, ?_, ?_⟩
    · intro i hi
      simp only
      exact getElem?_dropLast_of_lt hi
    · intro w hwv
      simp only
      exact assocGet_assocRemove_ne hwv

/-- C8: under I1 (hashers are irrelevant and unmodelled), two RandSets compare
equal iff they have equal cardinality and the same membership, independent of
internal positional order. -/
theorem claim_C8 {s t : RandSet α} (hs : I1 s) (ht : I1 t) :
    s.eq t = true ↔
      (s.len = t.len ∧ ∀ v, (s.contains v = true ↔ t.contains v = true)) := by
  constructor
  · intro he
    have hlen : s.len = t.len := by
      by_contra hne
      simp only [RandSet.eq, if_pos hne] at he
      cases he
    have hall : ∀ w ∈ s.iter, t.contains w = true := by
      have h2 := he
      simp only [RandSet.eq, if_neg (not_ne_iff.mpr hlen)] at h2
      exact fun w hw => List.all_eq_true.mp h2 w hw
    refine ⟨hlen, fun v => ⟨?_, ?_⟩⟩
    · intro hv
      exact hall v ((I1_mem_iff_contains hs).mpr hv)
    · intro hv
      have hm : v ∈ t.items_vector := (I1_mem_iff_contains ht).mpr hv
      have hsub : s.items_vector.toFinset ⊆ t.items_vector.toFinset := by
        intro x hx
        simp only [List.mem_toFinset] at hx ⊢
        exact (I1_mem_iff_contains ht).mpr (hall x hx)
      have hcards : t.items_vector.toFinset.card ≤ s.items_vector.toFinset.card := by
        rw [List.toFinset_card_of_nodup (I1_nodup_items hs),
          List.toFinset_card_of_nodup (I1_nodup_items ht)]
        exact le_of_eq hlen.symm
      have heq := Finset.eq_of_subset_of_card_le hsub hcards
      have hv2 : v ∈ s.items_vector.toFinset := by
        rw [heq]
        exact List.mem_toFinset.mpr hm
      exact (I1_mem_iff_contains hs).mp (List.mem_toFinset.mp hv2)
  · rintro ⟨hlen, hiff⟩
    simp only [RandSet.eq, if_neg (not_ne_iff.mpr hlen)]
    rw [List.all_eq_true]
    intro x hx
    exact (hiff x).mp ((I1_mem_iff_contains hs).mp hx)

/-- C10: every state reachable from the empty RandSet by public operations has
a duplicate-free Dense Store, so `iter` / `into_iter` yield each contained
element exactly once. -/
theorem claim_C10 (ops : List (Op α)) {s : RandSet α} (hs : runOps ops = some s) :
    s.iter.Nodup ∧ s.into_iter.Nodup ∧
      ∀ v, s.contains v = true → s.iter.count v = 1 := by
  rcases runFrom_I1 ops (I1_new (α := α)) with ⟨s', h1, h2⟩
  rw [runOps] at hs
  rw [hs] at h1
  cases h1
  refine ⟨I1_nodup_items h2, I1_nodup_items h2, ?_⟩
  intro v hv
  exact List.count_eq_one_of_mem (I1_nodup_items h2) ((I1_mem_iff_contains h2).mpr hv)

/-! ### Witnesses at concrete inputs -/

/-- A concrete state (as built by inserting 1, 2, 3 into an empty set). -/
def sEx : RandSet Nat := ⟨[(1, 0), (2, 1), (3, 2)], [1, 2, 3]⟩

/-- The same membership set in a different internal positional order. -/
def tEx : RandSet Nat := ⟨[(3, 0), (1, 1), (2, 2)], [3, 1, 2]⟩

/-- Witness for C2 at the state {1, 2, 3} and the absent value 4. -/
theorem claim_C2_witness :
    (sEx.contains 4 = true → sEx.insert 4 = (sEx, false)) ∧
    (sEx.contains 4 = false →
      (sEx.insert 4).2 = true ∧
      (sEx.insert 4).1.items_vector = sEx.items_vector ++ [4] ∧
      assocGet (sEx.insert 4).1.values_to_index 4 = some sEx.items_vector.length ∧
      (sEx.insert 4).1.len = sEx.len + 1) ∧
    (((sEx.insert 4).1.insert 4).2 = false ∧
      ((sEx.insert 4).1.insert 4).1.len = (sEx.insert 4).1.len) :=
  claim_C2 (by decide) 4

/-- Witness for C3 at the state {1, 2, 3} and the present value 2. -/
theorem claim_C3_witness :
    ∃ s' b, sEx.remove 2 = some (s', b) ∧
      (b = true ↔ sEx.contains 2 = true) ∧
      (b = true → s'.contains 2 = false ∧ s'.len + 1 = sEx.len) ∧
      (b = false → s' = sEx) :=
  claim_C3 (by decide) 2

/-- Witness for C4 at the state {1, 2, 3}, removing 1 (position 0, not last). -/
theorem claim_C4_witness :
    ((0 : Nat) ≠ sEx.items_vector.length - 1 →
      ∃ s' u, sEx.remove 1 = some (s', true) ∧
        sEx.items_vector[sEx.items_vector.length - 1]? = some u ∧
        s'.items_vector[0]? = some u ∧
        assocGet s'.values_to_index u = some 0 ∧
        s'.values_to_index.length + 1 = sEx.values_to_index.length ∧
        (∀ i, i < sEx.items_vector.length - 1 → i ≠ 0 →
          s'.items_vector[i]? = sEx.items_vector[i]?) ∧
        (∀ w, w ≠ 1 → w ≠ u →
          assocGet s'.values_to_index w = assocGet sEx.values_to_index w)) ∧
    ((0 : Nat) = sEx.items_vector.length - 1 →
      ∃ s', sEx.remove 1 = some (s', true) ∧
        (∀ i, i < sEx.items_vector.length - 1 →
          s'.items_vector[i]? = sEx.items_vector[i]?) ∧
        (∀ w, w ≠ 1 →
          assocGet s'.values_to_index w = assocGet sEx.values_to_index w)) :=
  claim_C4 (by decide) (by decide)

/-- Witness for C5 at the state {1, 2, 3}. -/
theorem claim_C5_witness :
    (sEx.items_vector = [] → ∀ idx, sEx.get_rand idx = none) ∧
    (∀ idx, idx < sEx.len → ∃ w, sEx.get_rand idx = some w ∧
      sEx.items_vector[idx]? = some w ∧ w ∈ sEx.items_vector ∧
      sEx.contains w = true) ∧
    (∀ w ∈ sEx.items_vector, ∃ idx, idx < sEx.len ∧ sEx.get_rand idx = some w) :=
  claim_C5 (by decide)

/-- Witness for C6 at the state {1, 2, 3} with the lookup of 1 at position 0. -/
theorem claim_C6_witness :
    0 < sEx.items_vector.length ∧ (0 : Nat) < sEx.items_vector.length ∧
      sEx.items_vector.length - 1 < sEx.items_vector.length ∧
      ∃ s', sEx.remove 1 = some (s', true) :=
  claim_C6 (by decide) (by decide)

/-- Witness for C7 at the state {1, 2, 3} and the absent value 9. -/
theorem claim_C7_witness : (sEx.insert 9).1.remove 9 = some (sEx, true) :=
  claim_C7 (by decide) (by decide)

/-- Witness for C8 on two equal sets stored in different orders. -/
theorem claim_C8_witness :
    sEx.eq tEx = true ↔
      (sEx.len = tEx.len ∧ ∀ v, (sEx.contains v = true ↔ tEx.contains v = true)) :=
  claim_C8 (by decide) (by decide)

/-- Witness for C9 at the state {1, 2, 3}. -/
theorem claim_C9_witness :
    sEx.len = sEx.items_vector.length ∧ (sEx.is_empty = true ↔ sEx.len = 0) :=
  claim_C9 (by decide)

/-- Witness for C10 on the run insert 1; insert 2; remove 1. -/
theorem claim_C10_witness :
    (RandSet.iter (⟨[(2, 0)], [2]⟩ : RandSet Nat)).Nodup ∧
      (RandSet.into_iter (⟨[(2, 0)], [2]⟩ : RandSet Nat)).Nodup ∧
      ∀ v, (⟨[(2, 0)], [2]⟩ : RandSet Nat).contains v = true →
        (RandSet.iter (⟨[(2, 0)], [2]⟩ : RandSet Nat)).count v = 1 :=
  claim_C10 [Op.insert 1, Op.insert 2, Op.remove 1] (by decide)

end RandSetSpec
